import Mathlib

/-!
# lockfree::queue::Spsc — a shallow embedding

Source: `src/spsc/include/lockfree/spsc.h`.

`size_t` is modelled as a natural number below `2 ^ 64`; every `+` and `-` of the
source is written with its wrap-around (`% 2 ^ 64`) and `&` is `&&&` on `Nat`.
The atomics are read and written one call at a time (sequential execution), so an
atomic load is a field read and an atomic store is a field update.
-/

namespace lockfree.queue

/-! ## Definitions -/

/-- Number of values of the 64-bit `size_t`. -/
def SIZE_T_MOD : Nat := 2 ^ 64

/-- Wrapping `a + b` of `size_t`. -/
def add_sz (a b : Nat) : Nat := (a + b) % SIZE_T_MOD

/-- Wrapping `a - b` of `size_t` (for `a, b < 2 ^ 64`). -/
def sub_sz (a b : Nat) : Nat := (a + SIZE_T_MOD - b) % SIZE_T_MOD

/-- The concept `NonZeroMultipleOfTwo<T>`: `(T & (T - 1)) == 0 && T >= 2`. -/
def NonZeroMultipleOfTwo (T : Nat) : Bool :=
  ((T &&& sub_sz T 1) == 0) && decide (T ≥ 2)

/-- The concept `EfficientValueSemantics<T>`:
`requires { { is_trivially_copyable_v<T> || is_move_constructible_v<T> }; }`.
The body is a compound requirement without a return-type requirement, which holds
when the expression in braces is well formed; the expression is not evaluated.
The two traits are well formed for every complete type, so their values, the
arguments here, do not reach the result. -/
def EfficientValueSemantics (is_trivially_copyable_v is_move_constructible_v : Bool) : Bool :=
  let _expression := is_trivially_copyable_v || is_move_constructible_v
  true

/-- The data members of `Spsc<T, Capacity>`: the two cursors and the slot array
`slots_[Capacity]`, the array as a map from index to the `data` of the slot.
Every index the operations use is `_ & MASK`, hence below `Capacity`
(`index_lt_Capacity`). -/
structure Spsc (α : Type) where
  head_ : Nat
  tail_ : Nat
  slots_ : Nat → α

/-- The constant `static constexpr size_t MASK = Capacity - 1`. -/
def MASK (Capacity : Nat) : Nat := sub_sz Capacity 1

/-- A default-constructed queue: both cursors `0`; the slots are not initialised and
hold whatever `init` says. -/
def Spsc.fresh {α : Type} (init : Nat → α) : Spsc α :=
  { head_ := 0, tail_ := 0, slots_ := init }

/-- The method `Spsc::try_push` for a trivially copyable `T`: the returned flag and the queue
after the call. -/
def try_push {α : Type} (Capacity : Nat) (q : Spsc α) (item : α) : Bool × Spsc α :=
  let current_tail := q.tail_
  let next_tail := add_sz current_tail 1 &&& MASK Capacity
  if next_tail == q.head_ then
    (false, q)
  else
    (true, { q with
      slots_ := Function.update q.slots_ (current_tail &&& MASK Capacity) item
      tail_ := next_tail })

/-- The method `Spsc::try_pop` for a trivially copyable `T`: the returned flag, the value of the
reference argument `item` after the call, and the queue after the call. -/
def try_pop {α : Type} (Capacity : Nat) (q : Spsc α) (item : α) : Bool × α × Spsc α :=
  let current_head := q.head_
  if current_head == q.tail_ then
    (false, item, q)
  else
    (true, q.slots_ (current_head &&& MASK Capacity),
      { q with head_ := add_sz current_head 1 &&& MASK Capacity })

/-- The method `Spsc::empty`: `head == tail`. -/
def empty {α : Type} (q : Spsc α) : Bool := q.head_ == q.tail_

/-- The method `Spsc::size`: `(tail - head) & MASK`. -/
def size {α : Type} (Capacity : Nat) (q : Spsc α) : Nat :=
  sub_sz q.tail_ q.head_ &&& MASK Capacity

/-- The method `Spsc::capacity`: the template parameter. -/
def capacity {α : Type} (Capacity : Nat) (_q : Spsc α) : Nat := Capacity

/-- States reached from a default-constructed queue by `try_push` and `try_pop` calls. -/
inductive Reachable {α : Type} (Capacity : Nat) : Spsc α → Prop
  | fresh (init : Nat → α) : Reachable Capacity (Spsc.fresh init)
  | push {q : Spsc α} (item : α) :
      Reachable Capacity q → Reachable Capacity (try_push Capacity q item).2
  | pop {q : Spsc α} (item : α) :
      Reachable Capacity q → Reachable Capacity (try_pop Capacity q item).2.2

/-- A call of the public interface: `try_push(x)` or `try_pop(item)`. -/
inductive Call (α : Type) where
  | push (x : α)
  | pop
  deriving DecidableEq, Repr

/-- Consecutive `try_push` calls, one per element: the flags returned and the queue
after the last call. -/
def push_all {α : Type} (Capacity : Nat) (q : Spsc α) : List α → List Bool × Spsc α
  | [] => ([], q)
  | x :: xs =>
    let r := try_push Capacity q x
    let rest := push_all Capacity r.2 xs
    (r.1 :: rest.1, rest.2)

/-- Consecutive `try_pop(item)` calls on one variable `item`, `n` of them: for each
call the flag returned and the value of `item` after it, and the queue after the last. -/
def pop_n {α : Type} (Capacity : Nat) (q : Spsc α) (item : α) : Nat → List (Bool × α) × Spsc α
  | 0 => ([], q)
  | n + 1 =>
    let r := try_pop Capacity q item
    let rest := pop_n Capacity r.2.2 r.2.1 n
    ((r.1, r.2.1) :: rest.1, rest.2)

/-- The outcome of a run of calls: the queue, the variable `item` the pops write to,
and the numbers of `try_push` and `try_pop` calls that returned `true`. -/
structure Run (α : Type) where
  queue : Spsc α
  item : α
  pushed : Nat
  popped : Nat

/-- One call applied to the outcome so far. -/
def Run.call {α : Type} (Capacity : Nat) (r : Run α) : Call α → Run α
  | Call.push x =>
    let p := try_push Capacity r.queue x
    { r with queue := p.2, pushed := if p.1 then r.pushed + 1 else r.pushed }
  | Call.pop =>
    let p := try_pop Capacity r.queue r.item
    { r with queue := p.2.2, item := p.2.1, popped := if p.1 then r.popped + 1 else r.popped }

/-- A sequence of calls executed one after another on a default-constructed queue. -/
def run {α : Type} (Capacity : Nat) (init : Nat → α) (item : α) (calls : List (Call α)) : Run α :=
  calls.foldl (Run.call Capacity) { queue := Spsc.fresh init, item := item, pushed := 0, popped := 0 }

/-- The elements pushed and not yet popped, oldest first: the slots at
`head, head + 1, …` (mod `Capacity`), `size()` of them. -/
def contents {α : Type} (Capacity : Nat) (q : Spsc α) : List α :=
  (List.range (size Capacity q)).map (fun i => q.slots_ ((q.head_ + i) % Capacity))

/-- The cursor invariant: both cursors are indices below `Capacity` and the occupied
count `(tail - head) & MASK` is at most `Capacity - 1`. -/
def CursorInv {α : Type} (Capacity : Nat) (q : Spsc α) : Prop :=
  q.head_ < Capacity ∧ q.tail_ < Capacity ∧ size Capacity q ≤ Capacity - 1

/-- What a run keeps true: the cursors stay in range and `size()` plus the number of
successful pops is the number of successful pushes. -/
def RunInv {α : Type} (Capacity : Nat) (r : Run α) : Prop :=
  r.queue.head_ < Capacity ∧ r.queue.tail_ < Capacity
    ∧ size Capacity r.queue + r.popped = r.pushed

/-- The queue `benchmark::CondVarQueue<T, Capacity>` (`cv_queue.h`): its `std::queue<T>`
as a list, front first. `try_push` under the lock: `false` when
`queue_.size() >= Capacity`, else the item is pushed at the back. -/
def CondVarQueue.try_push {α : Type} (Capacity : Nat) (queue_ : List α) (item : α) :
    Bool × List α :=
  if queue_.length ≥ Capacity then (false, queue_) else (true, queue_ ++ [item])

/-- The method `CondVarQueue::try_pop`: `false` when `queue_.empty()`, else `item` takes
`queue_.front()` and the front is popped. -/
def CondVarQueue.try_pop {α : Type} (queue_ : List α) (item : α) : Bool × α × List α :=
  match queue_ with
  | [] => (false, item, [])
  | front :: rest => (true, front, rest)

/-- The queue `benchmark::MutexQueue<T>` (`mutex_queue.h`): `try_push` under the lock
pushes the item at the back and returns `true`. -/
def MutexQueue.try_push {α : Type} (queue_ : List α) (item : α) : Bool × List α :=
  (true, queue_ ++ [item])

/-- The method `MutexQueue::try_pop`: `false` when `queue_.empty()`, else `item` takes
`queue_.front()` and the front is popped. -/
def MutexQueue.try_pop {α : Type} (queue_ : List α) (item : α) : Bool × α × List α :=
  match queue_ with
  | [] => (false, item, [])
  | front :: rest => (true, front, rest)

/-- The reference queue of the refinement, kept as a list: a push appends `x` when the
length is below `Capacity - 1`, else it returns `false` and the list as it was. -/
def RefQueue.push {α : Type} (Capacity : Nat) (l : List α) (x : α) : Bool × List α :=
  if l.length < Capacity - 1 then (true, l ++ [x]) else (false, l)

/-- The reference queue of the refinement: a pop removes and returns the first element
of a non-empty list, else it returns `false` and the list as it was. -/
def RefQueue.pop {α : Type} (l : List α) (item : α) : Bool × α × List α :=
  match l with
  | [] => (false, item, [])
  | y :: ys => (true, y, ys)

/-- A sequence of calls executed one after another on a queue with state `σ`, given its
two operations: for each call the flag returned and the value after the call of the
variable `item` that every `try_pop` writes to, and the state after the last call. -/
def exec {σ α : Type} (push : σ → α → Bool × σ) (pop : σ → α → Bool × α × σ) :
    σ → α → List (Call α) → List (Bool × α) × σ
  | s, _, [] => ([], s)
  | s, item, Call.push x :: cs =>
    let r := push s x
    let rest := exec push pop r.2 item cs
    ((r.1, item) :: rest.1, rest.2)
  | s, item, Call.pop :: cs =>
    let r := pop s item
    let rest := exec push pop r.2.2 r.2.1 cs
    ((r.1, r.2.1) :: rest.1, rest.2)

/-- Whether every `try_push` of a sequence of calls returns `true`. -/
def pushes_succeed {σ α : Type} (push : σ → α → Bool × σ) (pop : σ → α → Bool × α × σ) :
    σ → α → List (Call α) → Bool
  | _, _, [] => true
  | s, item, Call.push x :: cs =>
    (push s x).1 && pushes_succeed push pop (push s x).2 item cs
  | s, item, Call.pop :: cs =>
    pushes_succeed push pop (pop s item).2.2 (pop s item).2.1 cs

/-! ## Arithmetic of the cursors -/

theorem two_le_two_pow {k : Nat} (hk1 : 1 ≤ k) : 2 ≤ 2 ^ k := by
  calc 2 = 2 ^ 1 := by norm_num
    _ ≤ 2 ^ k := Nat.pow_le_pow_right (by norm_num) hk1

theorem two_pow_le_half {k : Nat} (hk : k ≤ 63) : 2 ^ k ≤ 2 ^ 63 :=
  Nat.pow_le_pow_right (by norm_num) hk

theorem MASK_two_pow {k : Nat} (hk : k ≤ 63) : MASK (2 ^ k) = 2 ^ k - 1 := by
  have h1 : 1 ≤ 2 ^ k := Nat.one_le_two_pow
  have h2 := two_pow_le_half hk
  unfold MASK sub_sz SIZE_T_MOD
  omega

theorem and_MASK {k : Nat} (hk : k ≤ 63) (x : Nat) : x &&& MASK (2 ^ k) = x % 2 ^ k := by
  rw [MASK_two_pow hk, Nat.and_pow_two_sub_one_eq_mod]

theorem index_lt_Capacity {k : Nat} (hk : k ≤ 63) (x : Nat) : x &&& MASK (2 ^ k) < 2 ^ k := by
  rw [and_MASK hk]
  exact Nat.mod_lt _ (Nat.two_pow_pos k)

theorem next_cursor {k : Nat} (hk : k ≤ 63) {c : Nat} (hc : c < 2 ^ k) :
    add_sz c 1 &&& MASK (2 ^ k) = (c + 1) % 2 ^ k := by
  have h2 := two_pow_le_half hk
  rw [and_MASK hk]
  unfold add_sz SIZE_T_MOD
  rw [Nat.mod_eq_of_lt (show c + 1 < 2 ^ 64 by omega)]

theorem sub_sz_and_MASK {k : Nat} (hk : k ≤ 63) {h t : Nat} (hh : h < 2 ^ k) (ht : t < 2 ^ k) :
    sub_sz t h &&& MASK (2 ^ k) = (t + 2 ^ k - h) % 2 ^ k := by
  have h2 := two_pow_le_half hk
  rw [and_MASK hk]
  have hsplit : (2 : Nat) ^ 64 = 2 ^ k * 2 ^ (64 - k) := by
    rw [← Nat.pow_add]; congr 1; omega
  have hm : 2 ≤ 2 ^ (64 - k) := two_le_two_pow (by omega)
  unfold sub_sz SIZE_T_MOD
  by_cases hle : h ≤ t
  · have e1 : (t + 2 ^ 64 - h) % 2 ^ 64 = t - h := by omega
    have e2 : t + 2 ^ k - h = (t - h) + 2 ^ k := by omega
    rw [e1, e2, Nat.add_mod_right]
  · have e1 : (t + 2 ^ 64 - h) % 2 ^ 64 = t + 2 ^ 64 - h := by omega
    obtain ⟨m, hm'⟩ : ∃ m, 2 ^ (64 - k) = m + 1 := ⟨2 ^ (64 - k) - 1, by omega⟩
    have e2 : t + 2 ^ 64 - h = (t + 2 ^ k - h) + 2 ^ k * m := by
      rw [hsplit, hm', Nat.mul_add, Nat.mul_one]; omega
    rw [e1, e2, Nat.add_mul_mod_self_left]

theorem succ_mod_cases {C c : Nat} (hc : c < C) :
    (c + 1) % C = if c + 1 = C then 0 else c + 1 := by
  split
  · next h => rw [h, Nat.mod_self]
  · next h => exact Nat.mod_eq_of_lt (by omega)

theorem wrap_sub_cases {C h t : Nat} (hh : h < C) (ht : t < C) :
    (t + C - h) % C = if h ≤ t then t - h else t + C - h := by
  split
  · next hle =>
    have e : t + C - h = (t - h) + C := by omega
    rw [e, Nat.add_mod_right]
    exact Nat.mod_eq_of_lt (by omega)
  · next hlt => exact Nat.mod_eq_of_lt (by omega)

theorem add_mod_cases {C h i : Nat} (hh : h < C) (hi : i < C) :
    (h + i) % C = if h + i < C then h + i else h + i - C := by
  split
  · next hlt => exact Nat.mod_eq_of_lt hlt
  · next hge =>
    have e : h + i = (h + i - C) + C := by omega
    rw [e, Nat.add_mod_right, Nat.add_sub_cancel]
    exact Nat.mod_eq_of_lt (by omega)

/-! ## The operations on an in-range queue -/

theorem size_eq {α : Type} {k : Nat} (hk : k ≤ 63) (q : Spsc α)
    (hh : q.head_ < 2 ^ k) (ht : q.tail_ < 2 ^ k) :
    size (2 ^ k) q = if q.head_ ≤ q.tail_ then q.tail_ - q.head_
      else q.tail_ + 2 ^ k - q.head_ := by
  unfold size
  rw [sub_sz_and_MASK hk hh ht, wrap_sub_cases hh ht]

theorem try_push_eq {α : Type} {k : Nat} (hk : k ≤ 63) (q : Spsc α)
    (ht : q.tail_ < 2 ^ k) (x : α) :
    try_push (2 ^ k) q x =
      if (q.tail_ + 1) % 2 ^ k = q.head_ then (false, q)
      else (true, { head_ := q.head_, tail_ := (q.tail_ + 1) % 2 ^ k,
                    slots_ := Function.update q.slots_ q.tail_ x }) := by
  unfold try_push
  simp only [next_cursor hk ht, and_MASK hk, Nat.mod_eq_of_lt ht, beq_iff_eq]

theorem try_pop_eq {α : Type} {k : Nat} (hk : k ≤ 63) (q : Spsc α)
    (hh : q.head_ < 2 ^ k) (item : α) :
    try_pop (2 ^ k) q item =
      if q.head_ = q.tail_ then (false, item, q)
      else (true, q.slots_ q.head_,
        { head_ := (q.head_ + 1) % 2 ^ k, tail_ := q.tail_, slots_ := q.slots_ }) := by
  unfold try_pop
  simp only [next_cursor hk hh, and_MASK hk, Nat.mod_eq_of_lt hh, beq_iff_eq]

theorem contents_length {α : Type} (Capacity : Nat) (q : Spsc α) :
    (contents Capacity q).length = size Capacity q := by
  simp [contents]

theorem size_le {α : Type} {k : Nat} (hk : k ≤ 63) (q : Spsc α)
    (hh : q.head_ < 2 ^ k) (ht : q.tail_ < 2 ^ k) : size (2 ^ k) q ≤ 2 ^ k - 1 := by
  rw [size_eq hk q hh ht]
  generalize 2 ^ k = C at *
  split_ifs <;> omega

theorem size_eq_zero_iff {α : Type} {k : Nat} (hk : k ≤ 63) (q : Spsc α)
    (hh : q.head_ < 2 ^ k) (ht : q.tail_ < 2 ^ k) :
    size (2 ^ k) q = 0 ↔ q.head_ = q.tail_ := by
  rw [size_eq hk q hh ht]
  generalize 2 ^ k = C at *
  split_ifs <;> omega

theorem full_iff {α : Type} {k : Nat} (hk : k ≤ 63) (q : Spsc α)
    (hh : q.head_ < 2 ^ k) (ht : q.tail_ < 2 ^ k) :
    (q.tail_ + 1) % 2 ^ k = q.head_ ↔ size (2 ^ k) q = 2 ^ k - 1 := by
  rw [size_eq hk q hh ht, succ_mod_cases ht]
  generalize 2 ^ k = C at *
  split_ifs <;> omega

/-- A `try_push` on a queue holding `Capacity - 1` elements. -/
theorem try_push_full {α : Type} {k : Nat} (hk : k ≤ 63) (q : Spsc α)
    (hh : q.head_ < 2 ^ k) (ht : q.tail_ < 2 ^ k) (x : α)
    (hfull : size (2 ^ k) q = 2 ^ k - 1) : try_push (2 ^ k) q x = (false, q) := by
  rw [try_push_eq hk q ht, if_pos ((full_iff hk q hh ht).2 hfull)]

/-- A `try_push` on a queue holding fewer than `Capacity - 1` elements. -/
theorem try_push_room {α : Type} {k : Nat} (hk : k ≤ 63) (q : Spsc α)
    (hh : q.head_ < 2 ^ k) (ht : q.tail_ < 2 ^ k) (x : α)
    (hroom : size (2 ^ k) q ≠ 2 ^ k - 1) :
    (try_push (2 ^ k) q x).1 = true
      ∧ (try_push (2 ^ k) q x).2.head_ = q.head_
      ∧ (try_push (2 ^ k) q x).2.tail_ < 2 ^ k
      ∧ size (2 ^ k) (try_push (2 ^ k) q x).2 = size (2 ^ k) q + 1
      ∧ contents (2 ^ k) (try_push (2 ^ k) q x).2 = contents (2 ^ k) q ++ [x] := by
  have hnf : ¬ (q.tail_ + 1) % 2 ^ k = q.head_ := fun h => hroom ((full_iff hk q hh ht).1 h)
  have hpos : 0 < 2 ^ k := Nat.two_pow_pos k
  have ht' : (q.tail_ + 1) % 2 ^ k < 2 ^ k := Nat.mod_lt _ hpos
  rw [try_push_eq hk q ht, if_neg hnf]
  have hsz : size (2 ^ k) (Spsc.mk q.head_ ((q.tail_ + 1) % 2 ^ k)
      (Function.update q.slots_ q.tail_ x)) = size (2 ^ k) q + 1 := by
    rw [size_eq hk q hh ht, size_eq hk (Spsc.mk q.head_ ((q.tail_ + 1) % 2 ^ k)
      (Function.update q.slots_ q.tail_ x)) hh ht']
    simp only
    rw [succ_mod_cases ht] at hnf ⊢
    generalize 2 ^ k = C at *
    split_ifs at hnf ⊢ <;> omega
  refine ⟨rfl, rfl, ht', hsz, ?_⟩
  unfold contents
  rw [hsz, List.range_succ, List.map_append, List.map_singleton]
  have hn := size_eq hk q hh ht
  have hle := size_le hk q hh ht
  congr 1
  · apply List.map_congr_left
    intro i hi
    have hi' : i < size (2 ^ k) q := List.mem_range.1 hi
    have hne : (q.head_ + i) % 2 ^ k ≠ q.tail_ := by
      rw [add_mod_cases hh (lt_of_lt_of_le hi' (le_trans hle (Nat.sub_le _ _)))]
      generalize size (2 ^ k) q = n at *
      generalize 2 ^ k = C at *
      split_ifs at hn ⊢ <;> omega
    simp only [Function.update_noteq hne]
  · have he : (q.head_ + size (2 ^ k) q) % 2 ^ k = q.tail_ := by
      rw [add_mod_cases hh (lt_of_le_of_lt hle (Nat.sub_lt hpos Nat.one_pos))]
      generalize size (2 ^ k) q = n at *
      generalize 2 ^ k = C at *
      split_ifs at hn ⊢ <;> omega
    show [Function.update q.slots_ q.tail_ x ((q.head_ + size (2 ^ k) q) % 2 ^ k)] = [x]
    rw [he, Function.update_same]

/-- A `try_pop` on a queue holding no element. -/
theorem try_pop_none {α : Type} {k : Nat} (hk : k ≤ 63) (q : Spsc α)
    (hh : q.head_ < 2 ^ k) (ht : q.tail_ < 2 ^ k) (item : α)
    (hz : size (2 ^ k) q = 0) : try_pop (2 ^ k) q item = (false, item, q) := by
  rw [try_pop_eq hk q hh, if_pos ((size_eq_zero_iff hk q hh ht).1 hz)]

/-- A `try_pop` on a queue holding at least one element. -/
theorem try_pop_some {α : Type} {k : Nat} (hk : k ≤ 63) (q : Spsc α)
    (hh : q.head_ < 2 ^ k) (ht : q.tail_ < 2 ^ k) (item : α)
    (hnz : size (2 ^ k) q ≠ 0) :
    (try_pop (2 ^ k) q item).1 = true
      ∧ (try_pop (2 ^ k) q item).2.2.tail_ = q.tail_
      ∧ (try_pop (2 ^ k) q item).2.2.head_ < 2 ^ k
      ∧ (try_pop (2 ^ k) q item).2.2.slots_ = q.slots_
      ∧ size (2 ^ k) (try_pop (2 ^ k) q item).2.2 + 1 = size (2 ^ k) q
      ∧ contents (2 ^ k) q
          = (try_pop (2 ^ k) q item).2.1 :: contents (2 ^ k) (try_pop (2 ^ k) q item).2.2 := by
  have hne : ¬ q.head_ = q.tail_ := fun h => hnz ((size_eq_zero_iff hk q hh ht).2 h)
  have hpos : 0 < 2 ^ k := Nat.two_pow_pos k
  have hh' : (q.head_ + 1) % 2 ^ k < 2 ^ k := Nat.mod_lt _ hpos
  rw [try_pop_eq hk q hh, if_neg hne]
  have hsz : size (2 ^ k) (Spsc.mk ((q.head_ + 1) % 2 ^ k) q.tail_ q.slots_) + 1
      = size (2 ^ k) q := by
    rw [size_eq hk q hh ht, size_eq hk (Spsc.mk ((q.head_ + 1) % 2 ^ k) q.tail_ q.slots_) hh' ht]
    simp only
    rw [succ_mod_cases hh]
    generalize 2 ^ k = C at *
    split_ifs <;> omega
  refine ⟨rfl, rfl, hh', rfl, hsz, ?_⟩
  unfold contents
  rw [← hsz, List.range_succ_eq_map, List.map_cons, List.map_map]
  simp only [Nat.add_zero, Nat.mod_eq_of_lt hh]
  congr 1
  apply List.map_congr_left
  intro i _
  simp only [Function.comp_apply, Nat.mod_add_mod]
  congr 2
  omega

/-! ## Reachable states and runs of calls -/

theorem try_push_in_range {α : Type} {k : Nat} (hk : k ≤ 63) (q : Spsc α)
    (hh : q.head_ < 2 ^ k) (ht : q.tail_ < 2 ^ k) (x : α) :
    (try_push (2 ^ k) q x).2.head_ < 2 ^ k ∧ (try_push (2 ^ k) q x).2.tail_ < 2 ^ k := by
  by_cases hfull : size (2 ^ k) q = 2 ^ k - 1
  · rw [try_push_full hk q hh ht x hfull]
    exact ⟨hh, ht⟩
  · obtain ⟨-, h2, h3, -, -⟩ := try_push_room hk q hh ht x hfull
    exact ⟨h2 ▸ hh, h3⟩

theorem try_pop_in_range {α : Type} {k : Nat} (hk : k ≤ 63) (q : Spsc α)
    (hh : q.head_ < 2 ^ k) (ht : q.tail_ < 2 ^ k) (item : α) :
    (try_pop (2 ^ k) q item).2.2.head_ < 2 ^ k ∧ (try_pop (2 ^ k) q item).2.2.tail_ < 2 ^ k := by
  by_cases hz : size (2 ^ k) q = 0
  · rw [try_pop_none hk q hh ht item hz]
    exact ⟨hh, ht⟩
  · obtain ⟨-, h2, h3, -, -, -⟩ := try_pop_some hk q hh ht item hz
    exact ⟨h3, h2 ▸ ht⟩

theorem reachable_in_range {α : Type} {k : Nat} (hk : k ≤ 63) {q : Spsc α}
    (hr : Reachable (2 ^ k) q) : q.head_ < 2 ^ k ∧ q.tail_ < 2 ^ k := by
  induction hr with
  | fresh init => exact ⟨Nat.two_pow_pos k, Nat.two_pow_pos k⟩
  | push item _ ih => exact try_push_in_range hk _ ih.1 ih.2 item
  | pop item _ ih => exact try_pop_in_range hk _ ih.1 ih.2 item

/-- Consecutive pushes on an in-range queue with `r` free places: the first `r` return
`true` and are appended to the contents, the others return `false`. -/
theorem push_all_spec {α : Type} {k : Nat} (hk : k ≤ 63) (xs : List α) :
    ∀ q : Spsc α, q.head_ < 2 ^ k → q.tail_ < 2 ^ k →
      (push_all (2 ^ k) q xs).1
          = List.replicate (min xs.length (2 ^ k - 1 - size (2 ^ k) q)) true
            ++ List.replicate (xs.length - (2 ^ k - 1 - size (2 ^ k) q)) false
        ∧ contents (2 ^ k) (push_all (2 ^ k) q xs).2
            = contents (2 ^ k) q ++ xs.take (2 ^ k - 1 - size (2 ^ k) q)
        ∧ (push_all (2 ^ k) q xs).2.head_ = q.head_
        ∧ (push_all (2 ^ k) q xs).2.tail_ < 2 ^ k := by
  induction xs with
  | nil =>
    intro q _ ht
    simp [push_all, ht]
  | cons x xs ih =>
    intro q hh ht
    by_cases hfull : size (2 ^ k) q = 2 ^ k - 1
    · have hp := try_push_full hk q hh ht x hfull
      obtain ⟨i1, i2, i3, i4⟩ := ih q hh ht
      have hr : 2 ^ k - 1 - size (2 ^ k) q = 0 := by omega
      rw [hr] at i1 i2 ⊢
      simp only [push_all, hp]
      refine ⟨?_, ?_, i3, i4⟩
      · rw [i1]
        simp [List.replicate_succ]
      · rw [i2]
        simp
    · obtain ⟨p1, p2, p3, p4, p5⟩ := try_push_room hk q hh ht x hfull
      obtain ⟨i1, i2, i3, i4⟩ := ih (try_push (2 ^ k) q x).2 (p2 ▸ hh) p3
      have hle := size_le hk q hh ht
      obtain ⟨r, hr⟩ : ∃ r, 2 ^ k - 1 - size (2 ^ k) q = r + 1 :=
        ⟨2 ^ k - 1 - size (2 ^ k) q - 1, by omega⟩
      have hr' : 2 ^ k - 1 - size (2 ^ k) (try_push (2 ^ k) q x).2 = r := by omega
      rw [hr'] at i1 i2
      rw [hr]
      simp only [push_all]
      refine ⟨?_, ?_, i3.trans p2, i4⟩
      · rw [i1, p1]
        simp [List.replicate_succ, Nat.succ_min_succ]
      · rw [i2, p5]
        simp

/-- Consecutive pops, no more than the queue holds: each returns `true` and the next
element of the contents. -/
theorem pop_n_spec {α : Type} {k : Nat} (hk : k ≤ 63) (n : Nat) :
    ∀ (q : Spsc α) (item : α), q.head_ < 2 ^ k → q.tail_ < 2 ^ k → n ≤ size (2 ^ k) q →
      (pop_n (2 ^ k) q item n).1 = ((contents (2 ^ k) q).take n).map (fun p => (true, p))
        ∧ contents (2 ^ k) (pop_n (2 ^ k) q item n).2 = (contents (2 ^ k) q).drop n
        ∧ (pop_n (2 ^ k) q item n).2.head_ < 2 ^ k
        ∧ (pop_n (2 ^ k) q item n).2.tail_ = q.tail_ := by
  induction n with
  | zero =>
    intro q item hh _ _
    simp [pop_n, hh]
  | succ n ih =>
    intro q item hh ht hn
    have hnz : size (2 ^ k) q ≠ 0 := by omega
    obtain ⟨p1, p2, p3, -, p5, p6⟩ := try_pop_some hk q hh ht item hnz
    obtain ⟨i1, i2, i3, i4⟩ := ih (try_pop (2 ^ k) q item).2.2 (try_pop (2 ^ k) q item).2.1
      p3 (p2 ▸ ht) (by omega)
    simp only [pop_n]
    refine ⟨?_, ?_, i3, i4.trans p2⟩
    · rw [i1, p1, p6]
      simp
    · rw [i2, p6]
      simp

/-! ## The capacity constraint -/

theorem and_pred_eq_zero_iff {n : Nat} (hn : 1 ≤ n) :
    n &&& (n - 1) = 0 ↔ ∃ k, n = 2 ^ k := by
  constructor
  · intro h
    have h1 : 2 ^ Nat.log 2 n ≤ n := Nat.pow_log_le_self 2 (by omega)
    have h2 : n < 2 ^ (Nat.log 2 n + 1) := Nat.lt_pow_succ_log_self (by norm_num) n
    by_contra hne
    have hne' : n ≠ 2 ^ Nat.log 2 n := fun e => hne ⟨_, e⟩
    generalize Nat.log 2 n = k at h1 h2 hne'
    rw [Nat.pow_succ] at h2
    have e1 : n = 2 ^ k + (n - 2 ^ k) := by omega
    have e2 : n - 1 = 2 ^ k + (n - 2 ^ k - 1) := by omega
    have b1 : n.testBit k = true := by
      rw [e1, Nat.testBit_two_pow_add_eq, Nat.testBit_lt_two_pow (by omega)]
      rfl
    have b2 : (n - 1).testBit k = true := by
      rw [e2, Nat.testBit_two_pow_add_eq, Nat.testBit_lt_two_pow (by omega)]
      rfl
    have b3 : (n &&& (n - 1)).testBit k = true := by
      rw [Nat.testBit_and, b1, b2]
      rfl
    rw [h, Nat.zero_testBit] at b3
    exact Bool.false_ne_true b3
  · rintro ⟨k, rfl⟩
    rw [Nat.and_pow_two_sub_one_eq_mod, Nat.mod_self]

theorem NonZeroMultipleOfTwo_iff {N : Nat} (hN : N < 2 ^ 64) :
    NonZeroMultipleOfTwo N = true ↔ ∃ k, 1 ≤ k ∧ k ≤ 63 ∧ N = 2 ^ k := by
  unfold NonZeroMultipleOfTwo
  rw [Bool.and_eq_true, beq_iff_eq, decide_eq_true_eq]
  constructor
  · rintro ⟨hand, hge⟩
    have hsub : sub_sz N 1 = N - 1 := by
      unfold sub_sz SIZE_T_MOD
      omega
    rw [hsub] at hand
    obtain ⟨k, rfl⟩ := (and_pred_eq_zero_iff (by omega)).1 hand
    refine ⟨k, ?_, ?_, rfl⟩
    · by_contra hk
      have : k = 0 := by omega
      subst this
      omega
    · by_contra hk
      have : 2 ^ 64 ≤ 2 ^ k := Nat.pow_le_pow_right (by norm_num) (by omega)
      omega
  · rintro ⟨k, hk1, hk, rfl⟩
    have h2 := two_le_two_pow hk1
    have hsub : sub_sz (2 ^ k) 1 = 2 ^ k - 1 := by
      unfold sub_sz SIZE_T_MOD
      omega
    rw [hsub]
    exact ⟨(and_pred_eq_zero_iff (by omega)).2 ⟨k, rfl⟩, h2⟩

/-! ## Runs of calls -/

theorem Reachable.of_push_all {α : Type} (Capacity : Nat) (xs : List α) :
    ∀ q : Spsc α, Reachable Capacity q → Reachable Capacity (push_all Capacity q xs).2 := by
  induction xs with
  | nil => intro q hq; exact hq
  | cons x xs ih => intro q hq; exact ih _ (Reachable.push x hq)

theorem Reachable.of_pop_n {α : Type} (Capacity : Nat) (n : Nat) :
    ∀ (q : Spsc α) (item : α), Reachable Capacity q →
      Reachable Capacity (pop_n Capacity q item n).2 := by
  induction n with
  | zero => intro q _ hq; exact hq
  | succ n ih => intro q item hq; exact ih _ _ (Reachable.pop item hq)

theorem RunInv.call {α : Type} {k : Nat} (hk : k ≤ 63) (r : Run α) (c : Call α)
    (hr : RunInv (2 ^ k) r) : RunInv (2 ^ k) (Run.call (2 ^ k) r c) := by
  obtain ⟨hh, ht, hs⟩ := hr
  cases c with
  | push x =>
    by_cases hfull : size (2 ^ k) r.queue = 2 ^ k - 1
    · have hp := try_push_full hk r.queue hh ht x hfull
      simp only [Run.call, hp]
      exact ⟨hh, ht, hs⟩
    · obtain ⟨p1, p2, p3, p4, -⟩ := try_push_room hk r.queue hh ht x hfull
      simp only [Run.call, p1]
      refine ⟨p2 ▸ hh, p3, ?_⟩
      simp only [p4, if_true]
      omega
  | pop =>
    by_cases hz : size (2 ^ k) r.queue = 0
    · have hp := try_pop_none hk r.queue hh ht r.item hz
      simp only [Run.call, hp]
      exact ⟨hh, ht, hs⟩
    · obtain ⟨p1, p2, p3, -, p5, -⟩ := try_pop_some hk r.queue hh ht r.item hz
      simp only [Run.call, p1]
      refine ⟨p3, p2 ▸ ht, ?_⟩
      simp only [if_true]
      omega

theorem RunInv.foldl {α : Type} {k : Nat} (hk : k ≤ 63) (calls : List (Call α)) :
    ∀ r : Run α, RunInv (2 ^ k) r → RunInv (2 ^ k) (calls.foldl (Run.call (2 ^ k)) r) := by
  induction calls with
  | nil => intro r hr; exact hr
  | cons c cs ih => intro r hr; exact ih _ (RunInv.call hk r c hr)

theorem size_fresh {α : Type} (Capacity : Nat) (init : Nat → α) :
    size Capacity (Spsc.fresh init) = 0 := by
  unfold size Spsc.fresh sub_sz SIZE_T_MOD
  simp

theorem RunInv.run {α : Type} {k : Nat} (hk : k ≤ 63) (init : Nat → α) (item : α)
    (calls : List (Call α)) : RunInv (2 ^ k) (run (2 ^ k) init item calls) := by
  apply RunInv.foldl hk
  exact ⟨Nat.two_pow_pos k, Nat.two_pow_pos k, by simp [size_fresh]⟩

/-! ## Slots, and the list the queue stands for -/

/-- In an in-range queue the slot at `tail` is none of the slots at
`head, head + 1, …` (mod `Capacity`) that hold the `size()` elements. -/
theorem tail_not_occupied {α : Type} {k : Nat} (hk : k ≤ 63) (q : Spsc α)
    (hh : q.head_ < 2 ^ k) (ht : q.tail_ < 2 ^ k) (i : Nat) (hi : i < size (2 ^ k) q) :
    (q.head_ + i) % 2 ^ k ≠ q.tail_ := by
  have hn := size_eq hk q hh ht
  have hle := size_le hk q hh ht
  rw [add_mod_cases hh (lt_of_lt_of_le hi (le_trans hle (Nat.sub_le _ _)))]
  generalize size (2 ^ k) q = n at *
  generalize 2 ^ k = C at *
  split_ifs at hn ⊢ <;> omega

/-- The simulation behind the refinement: from an in-range queue and the list of its
contents, a sequence of calls gives the same outcomes on the ring buffer and on the
reference queue, the pushes all succeed on the one when they do on the other, and the
final list is the contents of the final ring buffer. -/
theorem exec_simulation {α : Type} {k : Nat} (hk : k ≤ 63) (calls : List (Call α)) :
    ∀ (q : Spsc α) (item : α), q.head_ < 2 ^ k → q.tail_ < 2 ^ k →
      (exec (try_push (2 ^ k)) (try_pop (2 ^ k)) q item calls).1
          = (exec (RefQueue.push (2 ^ k)) RefQueue.pop (contents (2 ^ k) q) item calls).1
        ∧ contents (2 ^ k) (exec (try_push (2 ^ k)) (try_pop (2 ^ k)) q item calls).2
          = (exec (RefQueue.push (2 ^ k)) RefQueue.pop (contents (2 ^ k) q) item calls).2
        ∧ pushes_succeed (try_push (2 ^ k)) (try_pop (2 ^ k)) q item calls
          = pushes_succeed (RefQueue.push (2 ^ k)) RefQueue.pop (contents (2 ^ k) q) item calls
        ∧ (exec (try_push (2 ^ k)) (try_pop (2 ^ k)) q item calls).2.head_ < 2 ^ k
        ∧ (exec (try_push (2 ^ k)) (try_pop (2 ^ k)) q item calls).2.tail_ < 2 ^ k := by
  induction calls with
  | nil =>
    intro q item hh ht
    exact ⟨rfl, rfl, rfl, hh, ht⟩
  | cons c cs ih =>
    intro q item hh ht
    have hlen := contents_length (2 ^ k) q
    have hle := size_le hk q hh ht
    cases c with
    | push x =>
      by_cases hfull : size (2 ^ k) q = 2 ^ k - 1
      · have hp := try_push_full hk q hh ht x hfull
        have hr : RefQueue.push (2 ^ k) (contents (2 ^ k) q) x = (false, contents (2 ^ k) q) := by
          unfold RefQueue.push
          rw [if_neg (by omega)]
        obtain ⟨i1, i2, i3, i4, i5⟩ := ih q item hh ht
        simp only [exec, pushes_succeed, hp, hr]
        exact ⟨by rw [i1], i2, by rw [i3], i4, i5⟩
      · obtain ⟨p1, p2, p3, -, p5⟩ := try_push_room hk q hh ht x hfull
        have hr : RefQueue.push (2 ^ k) (contents (2 ^ k) q) x
            = (true, contents (2 ^ k) (try_push (2 ^ k) q x).2) := by
          unfold RefQueue.push
          rw [if_pos (by omega), p5]
        obtain ⟨i1, i2, i3, i4, i5⟩ := ih (try_push (2 ^ k) q x).2 item (p2 ▸ hh) p3
        simp only [exec, pushes_succeed, hr, p1]
        exact ⟨by rw [i1], i2, by rw [i3], i4, i5⟩
    | pop =>
      by_cases hz : size (2 ^ k) q = 0
      · have hp := try_pop_none hk q hh ht item hz
        have hc : contents (2 ^ k) q = [] := List.eq_nil_of_length_eq_zero (hlen.trans hz)
        obtain ⟨i1, i2, i3, i4, i5⟩ := ih q item hh ht
        rw [hc] at i1 i2 i3
        simp only [exec, pushes_succeed, hp, hc, RefQueue.pop]
        exact ⟨by rw [i1], i2, i3, i4, i5⟩
      · obtain ⟨p1, p2, p3, -, -, p6⟩ := try_pop_some hk q hh ht item hz
        obtain ⟨i1, i2, i3, i4, i5⟩ := ih (try_pop (2 ^ k) q item).2.2
          (try_pop (2 ^ k) q item).2.1 p3 (p2 ▸ ht)
        have hr : RefQueue.pop (contents (2 ^ k) q) item
            = (true, (try_pop (2 ^ k) q item).2.1,
                contents (2 ^ k) (try_pop (2 ^ k) q item).2.2) := by
          rw [p6]
          rfl
        simp only [exec, pushes_succeed, hr, p1]
        exact ⟨by rw [i1], i2, i3, i4, i5⟩

/-- On lists: while every push of the reference queue succeeds, the two baseline queues
give the outcomes of the reference queue and end with its list. -/
theorem exec_baselines {α : Type} (Capacity : Nat) (calls : List (Call α)) :
    ∀ (l : List α) (item : α),
      pushes_succeed (RefQueue.push Capacity) RefQueue.pop l item calls = true →
      exec (CondVarQueue.try_push Capacity) CondVarQueue.try_pop l item calls
          = exec (RefQueue.push Capacity) RefQueue.pop l item calls
        ∧ exec MutexQueue.try_push MutexQueue.try_pop l item calls
          = exec (RefQueue.push Capacity) RefQueue.pop l item calls := by
  induction calls with
  | nil =>
    intro l item _
    exact ⟨rfl, rfl⟩
  | cons c cs ih =>
    intro l item hs
    cases c with
    | push x =>
      simp only [pushes_succeed, Bool.and_eq_true] at hs
      obtain ⟨h1, h2⟩ := hs
      have hlt : l.length < Capacity - 1 := by
        by_contra hge
        unfold RefQueue.push at h1
        rw [if_neg hge] at h1
        exact Bool.false_ne_true h1
      have hr : RefQueue.push Capacity l x = (true, l ++ [x]) := by
        unfold RefQueue.push
        rw [if_pos hlt]
      have hc : CondVarQueue.try_push Capacity l x = (true, l ++ [x]) := by
        unfold CondVarQueue.try_push
        rw [if_neg (by omega)]
      rw [hr] at h2
      obtain ⟨i1, i2⟩ := ih (l ++ [x]) item h2
      simp only [exec, hr, hc, MutexQueue.try_push]
      exact ⟨by rw [i1], by rw [i2]⟩
    | pop =>
      simp only [pushes_succeed] at hs
      cases l with
      | nil =>
        obtain ⟨i1, i2⟩ := ih [] item hs
        simp only [exec, CondVarQueue.try_pop, MutexQueue.try_pop, RefQueue.pop]
        exact ⟨by rw [i1], by rw [i2]⟩
      | cons y ys =>
        obtain ⟨i1, i2⟩ := ih ys y hs
        simp only [exec, CondVarQueue.try_pop, MutexQueue.try_pop, RefQueue.pop]
        exact ⟨by rw [i1], by rw [i2]⟩

theorem contents_fresh {α : Type} (Capacity : Nat) (init : Nat → α) :
    contents Capacity (Spsc.fresh init) = [] := by
  unfold contents
  rw [size_fresh]
  rfl

/-- The body of `try_push` with its two branches, for every capacity. -/
theorem try_push_def {α : Type} (Capacity : Nat) (q : Spsc α) (item : α) :
    try_push Capacity q item =
      if add_sz q.tail_ 1 &&& MASK Capacity = q.head_ then (false, q)
      else (true, Spsc.mk q.head_ (add_sz q.tail_ 1 &&& MASK Capacity)
        (Function.update q.slots_ (q.tail_ &&& MASK Capacity) item)) := by
  unfold try_push
  simp only [beq_iff_eq]

/-- The body of `try_pop` with its two branches, for every capacity. -/
theorem try_pop_def {α : Type} (Capacity : Nat) (q : Spsc α) (item : α) :
    try_pop Capacity q item =
      if q.head_ = q.tail_ then (false, item, q)
      else (true, q.slots_ (q.head_ &&& MASK Capacity),
        Spsc.mk (add_sz q.head_ 1 &&& MASK Capacity) q.tail_ q.slots_) := by
  unfold try_pop
  simp only [beq_iff_eq]

/-! ## Specification properties -/

/-- C1 (FIFO order). For a power-of-two capacity `2 ^ k >= 2` of `size_t`, in every
empty state (`head == tail`) reached by earlier calls, the fresh queue included, the
pushes of `p1..pn` with `n <= Capacity - 1` all return `true`, and the `n` pops that
follow all return `true` and write `p1, ..., pn` to the output in that order. -/
theorem fifo_order {α : Type} (k : Nat) (hk1 : 1 ≤ k) (hk : k ≤ 63) (q : Spsc α)
    (hr : Reachable (2 ^ k) q) (hempty : q.head_ = q.tail_)
    (ps : List α) (hps : ps.length ≤ 2 ^ k - 1) (item : α) :
    (push_all (2 ^ k) q ps).1 = List.replicate ps.length true
      ∧ (pop_n (2 ^ k) (push_all (2 ^ k) q ps).2 item ps.length).1
          = ps.map (fun p => (true, p)) := by
  have _ := hk1
  obtain ⟨hh, ht⟩ := reachable_in_range hk hr
  have hz : size (2 ^ k) q = 0 := (size_eq_zero_iff hk q hh ht).2 hempty
  have hc : contents (2 ^ k) q = [] := List.eq_nil_of_length_eq_zero
    ((contents_length _ q).trans hz)
  obtain ⟨a1, a2, a3, a4⟩ := push_all_spec hk ps q hh ht
  rw [hz, Nat.sub_zero] at a1 a2
  rw [hc, List.nil_append, List.take_of_length_le hps] at a2
  have hsz : size (2 ^ k) (push_all (2 ^ k) q ps).2 = ps.length := by
    rw [← contents_length, a2]
  obtain ⟨b1, -, -, -⟩ := pop_n_spec hk ps.length (push_all (2 ^ k) q ps).2 item
    (a3 ▸ hh) a4 (le_of_eq hsz.symm)
  refine ⟨?_, ?_⟩
  · rw [a1, Nat.min_eq_left hps, Nat.sub_eq_zero_of_le hps]
    simp
  · rw [b1, a2, List.take_of_length_le (le_refl _)]

/-- Witness for C1: capacity 4, from the empty state with both cursors at 3 (after
three pushes and three pops), so that the pushes wrap around the array. -/
theorem fifo_order_witness :
    (push_all (2 ^ 2) (pop_n (2 ^ 2) (push_all (2 ^ 2) (Spsc.fresh (fun _ => (0 : Int)))
        [1, 2, 3]).2 0 3).2 [42, 43, 44]).1 = [true, true, true]
      ∧ (pop_n (2 ^ 2) (push_all (2 ^ 2) (pop_n (2 ^ 2) (push_all (2 ^ 2)
          (Spsc.fresh (fun _ => (0 : Int))) [1, 2, 3]).2 0 3).2 [42, 43, 44]).2 0 3).1
          = [(true, 42), (true, 43), (true, 44)] :=
  fifo_order 2 (by decide) (by decide)
    (pop_n (2 ^ 2) (push_all (2 ^ 2) (Spsc.fresh (fun _ => (0 : Int))) [1, 2, 3]).2 0 3).2
    (Reachable.of_pop_n _ 3 _ 0 (Reachable.of_push_all _ [1, 2, 3] _ (Reachable.fresh _)))
    (by decide) [42, 43, 44] (by decide) 0

/-- C2 (usable capacity is `Capacity - 1`). For a power-of-two capacity `C = 2 ^ k >= 2`,
of `C` consecutive pushes on a freshly constructed queue the first `C - 1` return `true`
and the `C`-th returns `false`. -/
theorem usable_capacity {α : Type} (k : Nat) (hk1 : 1 ≤ k) (hk : k ≤ 63) (init : Nat → α)
    (xs : List α) (hlen : xs.length = 2 ^ k) :
    (push_all (2 ^ k) (Spsc.fresh init) xs).1 = List.replicate (2 ^ k - 1) true ++ [false] := by
  have h2 := two_le_two_pow hk1
  obtain ⟨a1, -, -, -⟩ := push_all_spec hk xs (Spsc.fresh init)
    (Nat.two_pow_pos k) (Nat.two_pow_pos k)
  rw [size_fresh, Nat.sub_zero, hlen] at a1
  have e1 : min (2 ^ k) (2 ^ k - 1) = 2 ^ k - 1 := Nat.min_eq_right (Nat.sub_le _ _)
  have e2 : 2 ^ k - (2 ^ k - 1) = 1 := by omega
  rw [a1, e1, e2]
  rfl

/-- Witness for C2: capacity 4, pushes 42, 43, 44 succeed and push 45 fails. -/
theorem usable_capacity_witness :
    (push_all (2 ^ 2) (Spsc.fresh (fun _ => (0 : Int))) [42, 43, 44, 45]).1
      = [true, true, true, false] :=
  usable_capacity 2 (by decide) (by decide) (fun _ => (0 : Int)) [42, 43, 44, 45] (by decide)

/-- C3 (`try_pop` on an empty queue). In every state with `head == tail`, for every
capacity, `try_pop(out)` returns `false`, leaves `out` at its value, and leaves the
cursors and every slot as they were. -/
theorem try_pop_empty {α : Type} (Capacity : Nat) (q : Spsc α) (out : α)
    (hempty : q.head_ = q.tail_) : try_pop Capacity q out = (false, out, q) := by
  unfold try_pop
  simp [hempty]

/-- Witness for C3: capacity 4, freshly constructed, `value = 0`. -/
theorem try_pop_empty_witness :
    try_pop 4 (Spsc.fresh (fun _ => (0 : Int))) 0 = (false, 0, Spsc.fresh (fun _ => (0 : Int))) :=
  try_pop_empty 4 (Spsc.fresh (fun _ => (0 : Int))) 0 rfl

/-- C4 (`try_push` on a full queue). In every state with `(tail + 1) & MASK == head`,
for every capacity, `try_push(item)` returns `false` and leaves the cursors and every
slot as they were; any later sequence of pops gives what it gives without the push. -/
theorem try_push_full_no_effect {α : Type} (Capacity : Nat) (q : Spsc α) (item : α)
    (hfull : add_sz q.tail_ 1 &&& MASK Capacity = q.head_) :
    try_push Capacity q item = (false, q)
      ∧ ∀ (out : α) (n : Nat),
          pop_n Capacity (try_push Capacity q item).2 out n = pop_n Capacity q out n := by
  have h : try_push Capacity q item = (false, q) := by
    unfold try_push
    simp [hfull]
  exact ⟨h, fun out n => by rw [h]⟩

/-- Witness for C4: capacity 4 holding 42, 43, 44; the push of 45. -/
theorem try_push_full_no_effect_witness :
    try_push 4 (push_all 4 (Spsc.fresh (fun _ => (0 : Int))) [42, 43, 44]).2 45
        = (false, (push_all 4 (Spsc.fresh (fun _ => (0 : Int))) [42, 43, 44]).2)
      ∧ ∀ (out : Int) (n : Nat),
          pop_n 4 (try_push 4 (push_all 4 (Spsc.fresh (fun _ => (0 : Int)))
            [42, 43, 44]).2 45).2 out n
          = pop_n 4 (push_all 4 (Spsc.fresh (fun _ => (0 : Int))) [42, 43, 44]).2 out n :=
  try_push_full_no_effect 4 (push_all 4 (Spsc.fresh (fun _ => (0 : Int))) [42, 43, 44]).2 45
    (by decide)

/-- C5 (freed-slot reuse). For a power-of-two capacity `2 ^ k >= 2`, in every reachable
state where a `try_push` returns `false`, a `try_pop` returns `true`, the `try_push`
after it returns `true`, and the `try_push` after that one returns `false`. -/
theorem freed_slot_reuse {α : Type} (k : Nat) (hk1 : 1 ≤ k) (hk : k ≤ 63) (q : Spsc α)
    (hr : Reachable (2 ^ k) q) (x : α) (hfull : (try_push (2 ^ k) q x).1 = false)
    (out y z : α) :
    (try_pop (2 ^ k) q out).1 = true
      ∧ (try_push (2 ^ k) (try_pop (2 ^ k) q out).2.2 y).1 = true
      ∧ (try_push (2 ^ k) (try_push (2 ^ k) (try_pop (2 ^ k) q out).2.2 y).2 z).1 = false := by
  have h2 := two_le_two_pow hk1
  obtain ⟨hh, ht⟩ := reachable_in_range hk hr
  have hsz : size (2 ^ k) q = 2 ^ k - 1 := by
    by_contra hne
    have := (try_push_room hk q hh ht x hne).1
    rw [hfull] at this
    exact Bool.false_ne_true this
  obtain ⟨p1, p2, p3, -, p5, -⟩ := try_pop_some hk q hh ht out (by omega)
  have ht1 : (try_pop (2 ^ k) q out).2.2.tail_ < 2 ^ k := p2 ▸ ht
  obtain ⟨r1, r2, r3, r4, -⟩ := try_push_room hk (try_pop (2 ^ k) q out).2.2 p3 ht1 y
    (by omega)
  have hf := try_push_full hk (try_push (2 ^ k) (try_pop (2 ^ k) q out).2.2 y).2
    (r2 ▸ p3) r3 z (by omega)
  exact ⟨p1, r1, by rw [hf]⟩

/-- Witness for C5: capacity 4, push 42, 43, 44, the push of 45 fails; after a pop the
push of 45 succeeds and the push of 46 fails. -/
theorem freed_slot_reuse_witness :
    (try_pop (2 ^ 2) (push_all (2 ^ 2) (Spsc.fresh (fun _ => (0 : Int))) [42, 43, 44]).2 0).1
        = true
      ∧ (try_push (2 ^ 2) (try_pop (2 ^ 2)
          (push_all (2 ^ 2) (Spsc.fresh (fun _ => (0 : Int))) [42, 43, 44]).2 0).2.2 45).1 = true
      ∧ (try_push (2 ^ 2) (try_push (2 ^ 2) (try_pop (2 ^ 2)
          (push_all (2 ^ 2) (Spsc.fresh (fun _ => (0 : Int))) [42, 43, 44]).2 0).2.2 45).2 46).1
        = false :=
  freed_slot_reuse 2 (by decide) (by decide)
    (push_all (2 ^ 2) (Spsc.fresh (fun _ => (0 : Int))) [42, 43, 44]).2
    (Reachable.of_push_all _ [42, 43, 44] _ (Reachable.fresh _)) 45 (by decide) 0 45 46

/-- C6 (push/pop round trip). For a power-of-two capacity `2 ^ k >= 2`, in every reachable
state where `empty()` is `true`, `try_push(x)` returns `true`, the `try_pop(out)` after
it returns `true` with `out == x`, and then `empty()` is `true`, `size()` is `0` and one
more `try_pop` returns `false`. -/
theorem push_pop_round_trip {α : Type} (k : Nat) (hk1 : 1 ≤ k) (hk : k ≤ 63) (q : Spsc α)
    (hr : Reachable (2 ^ k) q) (hempty : empty q = true) (x out out' : α) :
    (try_push (2 ^ k) q x).1 = true
      ∧ (try_pop (2 ^ k) (try_push (2 ^ k) q x).2 out).1 = true
      ∧ (try_pop (2 ^ k) (try_push (2 ^ k) q x).2 out).2.1 = x
      ∧ empty (try_pop (2 ^ k) (try_push (2 ^ k) q x).2 out).2.2 = true
      ∧ size (2 ^ k) (try_pop (2 ^ k) (try_push (2 ^ k) q x).2 out).2.2 = 0
      ∧ (try_pop (2 ^ k) (try_pop (2 ^ k) (try_push (2 ^ k) q x).2 out).2.2 out').1 = false := by
  have h2 := two_le_two_pow hk1
  obtain ⟨hh, ht⟩ := reachable_in_range hk hr
  have he : q.head_ = q.tail_ := by
    unfold empty at hempty
    exact beq_iff_eq.1 hempty
  have hz : size (2 ^ k) q = 0 := (size_eq_zero_iff hk q hh ht).2 he
  have hc : contents (2 ^ k) q = [] := List.eq_nil_of_length_eq_zero
    ((contents_length _ q).trans hz)
  obtain ⟨p1, p2, p3, p4, p5⟩ := try_push_room hk q hh ht x (by omega)
  have hh1 : (try_push (2 ^ k) q x).2.head_ < 2 ^ k := p2 ▸ hh
  obtain ⟨r1, r2, r3, -, r5, r6⟩ := try_pop_some hk (try_push (2 ^ k) q x).2 hh1 p3 out
    (by omega)
  have ht2 : (try_pop (2 ^ k) (try_push (2 ^ k) q x).2 out).2.2.tail_ < 2 ^ k := r2 ▸ p3
  have hz2 : size (2 ^ k) (try_pop (2 ^ k) (try_push (2 ^ k) q x).2 out).2.2 = 0 := by omega
  have he2 := (size_eq_zero_iff hk _ r3 ht2).1 hz2
  rw [p5, hc, List.nil_append] at r6
  refine ⟨p1, r1, (List.cons.inj r6).1.symm, ?_, hz2, ?_⟩
  · unfold empty
    exact beq_iff_eq.2 he2
  · rw [try_pop_none hk _ r3 ht2 out' hz2]

/-- Witness for C6: capacity 1024, freshly constructed, `x = 42`. -/
theorem push_pop_round_trip_witness :
    (try_push (2 ^ 10) (Spsc.fresh (fun _ => (0 : Int))) 42).1 = true
      ∧ (try_pop (2 ^ 10) (try_push (2 ^ 10) (Spsc.fresh (fun _ => (0 : Int))) 42).2 0).1 = true
      ∧ (try_pop (2 ^ 10) (try_push (2 ^ 10) (Spsc.fresh (fun _ => (0 : Int))) 42).2 0).2.1 = 42
      ∧ empty (try_pop (2 ^ 10)
          (try_push (2 ^ 10) (Spsc.fresh (fun _ => (0 : Int))) 42).2 0).2.2 = true
      ∧ size (2 ^ 10) (try_pop (2 ^ 10)
          (try_push (2 ^ 10) (Spsc.fresh (fun _ => (0 : Int))) 42).2 0).2.2 = 0
      ∧ (try_pop (2 ^ 10) (try_pop (2 ^ 10)
          (try_push (2 ^ 10) (Spsc.fresh (fun _ => (0 : Int))) 42).2 0).2.2 7).1 = false :=
  push_pop_round_trip 10 (by decide) (by decide) (Spsc.fresh (fun _ => (0 : Int)))
    (Reachable.fresh _) rfl 42 0 7

/-- C7 (`size()` and `empty()` agree with the contents). For a power-of-two capacity
`2 ^ k >= 2`, after every sequence of calls on a freshly constructed queue, the pops that
returned `true` are no more than the pushes that returned `true`, `size()` is the
difference of the two numbers, and `empty()` is `true` exactly when the difference is 0. -/
theorem size_empty_consistent {α : Type} (k : Nat) (hk1 : 1 ≤ k) (hk : k ≤ 63)
    (init : Nat → α) (item : α) (calls : List (Call α)) :
    (run (2 ^ k) init item calls).popped ≤ (run (2 ^ k) init item calls).pushed
      ∧ size (2 ^ k) (run (2 ^ k) init item calls).queue
          = (run (2 ^ k) init item calls).pushed - (run (2 ^ k) init item calls).popped
      ∧ (empty (run (2 ^ k) init item calls).queue = true
          ↔ (run (2 ^ k) init item calls).pushed - (run (2 ^ k) init item calls).popped = 0) := by
  have _ := hk1
  obtain ⟨hh, ht, hs⟩ := RunInv.run hk init item calls
  have hz := size_eq_zero_iff hk _ hh ht
  refine ⟨by omega, by omega, ?_⟩
  unfold empty
  rw [beq_iff_eq, ← hz]
  omega

/-- Witness for C7: capacity 4 and the calls push 1, push 2, push 3, pop, pop, push 4,
push 5, after which `tail < head`. -/
theorem size_empty_consistent_witness :
    (run (2 ^ 2) (fun _ => (0 : Int)) 0 [Call.push 1, Call.push 2, Call.push 3, Call.pop,
        Call.pop, Call.push 4, Call.push 5]).popped
      ≤ (run (2 ^ 2) (fun _ => (0 : Int)) 0 [Call.push 1, Call.push 2, Call.push 3, Call.pop,
        Call.pop, Call.push 4, Call.push 5]).pushed
      ∧ size (2 ^ 2) (run (2 ^ 2) (fun _ => (0 : Int)) 0 [Call.push 1, Call.push 2,
          Call.push 3, Call.pop, Call.pop, Call.push 4, Call.push 5]).queue
        = (run (2 ^ 2) (fun _ => (0 : Int)) 0 [Call.push 1, Call.push 2, Call.push 3, Call.pop,
            Call.pop, Call.push 4, Call.push 5]).pushed
          - (run (2 ^ 2) (fun _ => (0 : Int)) 0 [Call.push 1, Call.push 2, Call.push 3,
            Call.pop, Call.pop, Call.push 4, Call.push 5]).popped
      ∧ (empty (run (2 ^ 2) (fun _ => (0 : Int)) 0 [Call.push 1, Call.push 2, Call.push 3,
          Call.pop, Call.pop, Call.push 4, Call.push 5]).queue = true
        ↔ (run (2 ^ 2) (fun _ => (0 : Int)) 0 [Call.push 1, Call.push 2, Call.push 3, Call.pop,
            Call.pop, Call.push 4, Call.push 5]).pushed
          - (run (2 ^ 2) (fun _ => (0 : Int)) 0 [Call.push 1, Call.push 2, Call.push 3,
            Call.pop, Call.pop, Call.push 4, Call.push 5]).popped = 0) :=
  size_empty_consistent 2 (by decide) (by decide) (fun _ => (0 : Int)) 0
    [Call.push 1, Call.push 2, Call.push 3, Call.pop, Call.pop, Call.push 4, Call.push 5]

/-- C8 (capacity validation). Over the 64-bit `size_t`, `NonZeroMultipleOfTwo<N>` holds
exactly when `N = 2 ^ k` with `1 <= k <= 63`; it does not hold for 0, for 1, or for an
`N` that is no power of two. -/
theorem capacity_validation (N : Nat) (hN : N < 2 ^ 64) :
    (NonZeroMultipleOfTwo N = true ↔ ∃ k, 1 ≤ k ∧ k ≤ 63 ∧ N = 2 ^ k)
      ∧ NonZeroMultipleOfTwo 0 = false
      ∧ NonZeroMultipleOfTwo 1 = false
      ∧ ((¬ ∃ k, N = 2 ^ k) → NonZeroMultipleOfTwo N = false) := by
  refine ⟨NonZeroMultipleOfTwo_iff hN, by decide, by decide, ?_⟩
  intro hnp
  rw [← Bool.not_eq_true, NonZeroMultipleOfTwo_iff hN]
  rintro ⟨k, -, -, e⟩
  exact hnp ⟨k, e⟩

/-- Witness for C8: `N = 1024`. -/
theorem capacity_validation_witness :
    (NonZeroMultipleOfTwo 1024 = true ↔ ∃ k, 1 ≤ k ∧ k ≤ 63 ∧ 1024 = 2 ^ k)
      ∧ NonZeroMultipleOfTwo 0 = false
      ∧ NonZeroMultipleOfTwo 1 = false
      ∧ ((¬ ∃ k, 1024 = 2 ^ k) → NonZeroMultipleOfTwo 1024 = false) :=
  capacity_validation 1024 (by decide)

/-- C9 (payload-type validation), the code at the failing input: for a type that is
neither trivially copyable nor move-constructible the constraint
`EfficientValueSemantics<T>` is satisfied, so `Spsc<T, Capacity>` is not rejected. -/
theorem efficient_value_semantics_neither : EfficientValueSemantics false false = true := rfl

/-- C10 (cursor invariant). For a power-of-two capacity `2 ^ k >= 2`, every state reached
from the freshly constructed queue has `head < Capacity`, `tail < Capacity` and
`(tail - head) & MASK <= Capacity - 1`, and `try_push` and `try_pop` keep the three
true from any state where they hold. -/
theorem cursor_invariant {α : Type} (k : Nat) (hk1 : 1 ≤ k) (hk : k ≤ 63) :
    (∀ q : Spsc α, Reachable (2 ^ k) q → CursorInv (2 ^ k) q)
      ∧ (∀ (q : Spsc α) (x : α), CursorInv (2 ^ k) q → CursorInv (2 ^ k) (try_push (2 ^ k) q x).2)
      ∧ (∀ (q : Spsc α) (out : α), CursorInv (2 ^ k) q →
          CursorInv (2 ^ k) (try_pop (2 ^ k) q out).2.2) := by
  have _ := hk1
  refine ⟨?_, ?_, ?_⟩
  · intro q hr
    obtain ⟨hh, ht⟩ := reachable_in_range hk hr
    exact ⟨hh, ht, size_le hk q hh ht⟩
  · rintro q x ⟨hh, ht, -⟩
    obtain ⟨h1, h2⟩ := try_push_in_range hk q hh ht x
    exact ⟨h1, h2, size_le hk _ h1 h2⟩
  · rintro q out ⟨hh, ht, -⟩
    obtain ⟨h1, h2⟩ := try_pop_in_range hk q hh ht out
    exact ⟨h1, h2, size_le hk _ h1 h2⟩

/-- Witness for C10: capacity 4 after the calls push 1, push 2, push 3, pop, pop, push 4. -/
theorem cursor_invariant_witness :
    CursorInv (2 ^ 2) (try_push (2 ^ 2) (pop_n (2 ^ 2)
      (push_all (2 ^ 2) (Spsc.fresh (fun _ => (0 : Int))) [1, 2, 3]).2 0 2).2 4).2 :=
  (cursor_invariant 2 (by decide) (by decide)).1 _
    (Reachable.push 4 (Reachable.of_pop_n _ 2 _ 0
      (Reachable.of_push_all _ [1, 2, 3] _ (Reachable.fresh _))))

/-- C11 (slot exclusivity). For a power-of-two capacity `2 ^ k >= 2`: a `try_push(item)`
that returns `true` leaves `item` in the slot at `tail & MASK` (`tail` as before the
call) and every other slot as it was; in every reachable state that slot is none of the
slots at `head, head + 1, …` (mod `Capacity`) holding the `size()` elements not yet
popped; a `try_pop` that returns `true` returns the slot at `head & MASK`. -/
theorem slot_exclusivity {α : Type} (k : Nat) (hk1 : 1 ≤ k) (hk : k ≤ 63) :
    (∀ (q : Spsc α) (item : α), (try_push (2 ^ k) q item).1 = true →
        (try_push (2 ^ k) q item).2.slots_ (q.tail_ &&& MASK (2 ^ k)) = item
          ∧ ∀ i, i ≠ q.tail_ &&& MASK (2 ^ k) →
              (try_push (2 ^ k) q item).2.slots_ i = q.slots_ i)
      ∧ (∀ q : Spsc α, Reachable (2 ^ k) q → ∀ i, i < size (2 ^ k) q →
          (q.head_ + i) % 2 ^ k ≠ q.tail_ &&& MASK (2 ^ k))
      ∧ (∀ (q : Spsc α) (out : α), (try_pop (2 ^ k) q out).1 = true →
          (try_pop (2 ^ k) q out).2.1 = q.slots_ (q.head_ &&& MASK (2 ^ k))) := by
  have _ := hk1
  refine ⟨?_, ?_, ?_⟩
  · intro q item hok
    rw [try_push_def] at hok ⊢
    split_ifs at hok ⊢ with hc
    exact ⟨Function.update_same _ _ _, fun i hi => Function.update_noteq hi _ _⟩
  · intro q hr i hi
    obtain ⟨hh, ht⟩ := reachable_in_range hk hr
    rw [and_MASK hk, Nat.mod_eq_of_lt ht]
    exact tail_not_occupied hk q hh ht i hi
  · intro q out hok
    rw [try_pop_def] at hok ⊢
    split_ifs at hok ⊢ with hc
    rfl

/-- Witness for C11: capacity 4 holding 1 and 2 after the calls push 0, push 1, push 2,
pop; the push of 3 goes to slot 3, which is not slot 1 or 2. -/
theorem slot_exclusivity_witness :
    ((try_push (2 ^ 2) (pop_n (2 ^ 2) (push_all (2 ^ 2) (Spsc.fresh (fun _ => (7 : Int)))
        [0, 1, 2]).2 0 1).2 3).2.slots_ 3 = 3
      ∧ (try_push (2 ^ 2) (pop_n (2 ^ 2) (push_all (2 ^ 2) (Spsc.fresh (fun _ => (7 : Int)))
        [0, 1, 2]).2 0 1).2 3).2.slots_ 1 = 1)
      ∧ (1 + 1) % 2 ^ 2 ≠ 3
      ∧ (try_pop (2 ^ 2) (pop_n (2 ^ 2) (push_all (2 ^ 2) (Spsc.fresh (fun _ => (7 : Int)))
        [0, 1, 2]).2 0 1).2 0).2.1 = 1 :=
  ⟨⟨((slot_exclusivity 2 (by decide) (by decide)).1
      (pop_n (2 ^ 2) (push_all (2 ^ 2) (Spsc.fresh (fun _ => (7 : Int))) [0, 1, 2]).2 0 1).2 3
      (by decide)).1,
    ((slot_exclusivity 2 (by decide) (by decide)).1
      (pop_n (2 ^ 2) (push_all (2 ^ 2) (Spsc.fresh (fun _ => (7 : Int))) [0, 1, 2]).2 0 1).2 3
      (by decide)).2 1 (by decide)⟩,
   (slot_exclusivity 2 (by decide) (by decide)).2.1
      (pop_n (2 ^ 2) (push_all (2 ^ 2) (Spsc.fresh (fun _ => (7 : Int))) [0, 1, 2]).2 0 1).2
      (Reachable.of_pop_n _ 1 _ 0 (Reachable.of_push_all _ [0, 1, 2] _ (Reachable.fresh _)))
      1 (by decide),
   (slot_exclusivity 2 (by decide) (by decide)).2.2
      (pop_n (2 ^ 2) (push_all (2 ^ 2) (Spsc.fresh (fun _ => (7 : Int))) [0, 1, 2]).2 0 1).2 0
      (by decide)⟩

/-- C12 (cursor ownership). For every capacity, state and argument, `try_push` leaves
`head` as it was and `try_pop` leaves `tail` as it was, whether they return `true` or
`false`. The `const` methods `empty()`, `size()` and `capacity()` only load the cursors
or return the constant; they are functions of the state and give no new state. -/
theorem cursor_ownership {α : Type} (Capacity : Nat) (q : Spsc α) (item : α) :
    (try_push Capacity q item).2.head_ = q.head_
      ∧ (try_pop Capacity q item).2.2.tail_ = q.tail_ := by
  rw [try_push_def, try_pop_def]
  constructor <;> split_ifs <;> rfl

/-- C13 as stated fails: with capacity 4, after the calls push 1, push 2, push 3, push 4
and four pops the ring buffer has refused 4 where `CondVarQueue<int, 4>` took it, and
after five pushes `CondVarQueue<int, 4>` has refused 5 where `MutexQueue<int>` took it. -/
theorem baselines_differ :
    (exec (try_push 4) (try_pop 4) (Spsc.fresh (fun _ => (0 : Int))) 0
        [Call.push 1, Call.push 2, Call.push 3, Call.push 4,
          Call.pop, Call.pop, Call.pop, Call.pop]).1
      ≠ (exec (CondVarQueue.try_push 4) CondVarQueue.try_pop [] 0
        [Call.push 1, Call.push 2, Call.push 3, Call.push 4,
          Call.pop, Call.pop, Call.pop, Call.pop]).1
    ∧ (exec (CondVarQueue.try_push 4) CondVarQueue.try_pop ([] : List Int) 0
        [Call.push 1, Call.push 2, Call.push 3, Call.push 4, Call.push 5]).1
      ≠ (exec MutexQueue.try_push MutexQueue.try_pop [] 0
        [Call.push 1, Call.push 2, Call.push 3, Call.push 4, Call.push 5]).1 := by
  constructor <;> decide

/-- C13, amended. For a power-of-two capacity `C = 2 ^ k >= 2` and every sequence of calls
on which every `try_push` of the `Spsc<T, C>` returns `true` (no push is tried while it
holds `C - 1` elements), the `Spsc<T, C>`, the `CondVarQueue<T, C>` and the
`MutexQueue<T>`, each starting empty, return the same flag at every call and the same
popped value at every pop. -/
theorem baselines_agree_while_not_full {α : Type} (k : Nat) (hk1 : 1 ≤ k) (hk : k ≤ 63)
    (init : Nat → α) (item : α) (calls : List (Call α))
    (hpush : pushes_succeed (try_push (2 ^ k)) (try_pop (2 ^ k)) (Spsc.fresh init) item calls
      = true) :
    (exec (try_push (2 ^ k)) (try_pop (2 ^ k)) (Spsc.fresh init) item calls).1
        = (exec (CondVarQueue.try_push (2 ^ k)) CondVarQueue.try_pop [] item calls).1
      ∧ (exec (try_push (2 ^ k)) (try_pop (2 ^ k)) (Spsc.fresh init) item calls).1
        = (exec MutexQueue.try_push MutexQueue.try_pop [] item calls).1 := by
  have _ := hk1
  obtain ⟨s1, -, s3, -, -⟩ := exec_simulation hk calls (Spsc.fresh init) item
    (Nat.two_pow_pos k) (Nat.two_pow_pos k)
  rw [contents_fresh] at s1 s3
  obtain ⟨b1, b2⟩ := exec_baselines (2 ^ k) calls [] item (s3 ▸ hpush)
  exact ⟨by rw [s1, b1], by rw [s1, b2]⟩

/-- Witness for C13 amended: capacity 4 and the calls push 1, push 2, push 3, pop,
push 4, then four pops, the last of which fails on all three queues. -/
theorem baselines_agree_while_not_full_witness :
    (exec (try_push (2 ^ 2)) (try_pop (2 ^ 2)) (Spsc.fresh (fun _ => (0 : Int))) 0
        [Call.push 1, Call.push 2, Call.push 3, Call.pop, Call.push 4,
          Call.pop, Call.pop, Call.pop, Call.pop]).1
        = (exec (CondVarQueue.try_push (2 ^ 2)) CondVarQueue.try_pop [] 0
          [Call.push 1, Call.push 2, Call.push 3, Call.pop, Call.push 4,
            Call.pop, Call.pop, Call.pop, Call.pop]).1
      ∧ (exec (try_push (2 ^ 2)) (try_pop (2 ^ 2)) (Spsc.fresh (fun _ => (0 : Int))) 0
        [Call.push 1, Call.push 2, Call.push 3, Call.pop, Call.push 4,
          Call.pop, Call.pop, Call.pop, Call.pop]).1
        = (exec MutexQueue.try_push MutexQueue.try_pop [] 0
          [Call.push 1, Call.push 2, Call.push 3, Call.pop, Call.push 4,
            Call.pop, Call.pop, Call.pop, Call.pop]).1 :=
  baselines_agree_while_not_full 2 (by decide) (by decide) (fun _ => (0 : Int)) 0
    [Call.push 1, Call.push 2, Call.push 3, Call.pop, Call.push 4,
      Call.pop, Call.pop, Call.pop, Call.pop] (by decide)

/-- C14 as stated fails: with capacity 4 the fourth of four consecutive pushes on a fresh
queue returns `false`, and the queue then holds 3 elements, not 4. -/
theorem capacity_not_reached :
    (push_all 4 (Spsc.fresh (fun _ => (0 : Int))) [1, 2, 3, 4]).1 ≠ [true, true, true, true]
      ∧ (run 4 (fun _ => (0 : Int)) 0
          [Call.push 1, Call.push 2, Call.push 3, Call.push 4]).pushed = 3
      ∧ contents 4 (push_all 4 (Spsc.fresh (fun _ => (0 : Int))) [1, 2, 3, 4]).2 = [1, 2, 3] := by
  refine ⟨by decide, by decide, by decide⟩

/-- C14, amended. For a power-of-two capacity `C = 2 ^ k >= 2`, `capacity()` returns `C`
in every state, and the maximum number of elements in the queue is `C - 1`: `C - 1`
consecutive pushes on a fresh queue all return `true` and leave their `C - 1` values in
the queue, and in no state reached from the fresh queue do the elements not yet popped
(successful pushes minus successful pops, which is `size()`) exceed `C - 1`. -/
theorem max_elements {α : Type} (k : Nat) (hk1 : 1 ≤ k) (hk : k ≤ 63) :
    (∀ q : Spsc α, capacity (2 ^ k) q = 2 ^ k)
      ∧ (∀ (init : Nat → α) (xs : List α), xs.length = 2 ^ k - 1 →
          (push_all (2 ^ k) (Spsc.fresh init) xs).1 = List.replicate (2 ^ k - 1) true
            ∧ contents (2 ^ k) (push_all (2 ^ k) (Spsc.fresh init) xs).2 = xs
            ∧ size (2 ^ k) (push_all (2 ^ k) (Spsc.fresh init) xs).2 = 2 ^ k - 1)
      ∧ (∀ (init : Nat → α) (item : α) (calls : List (Call α)),
          (run (2 ^ k) init item calls).pushed - (run (2 ^ k) init item calls).popped
            ≤ 2 ^ k - 1)
      ∧ (∀ q : Spsc α, Reachable (2 ^ k) q → size (2 ^ k) q ≤ 2 ^ k - 1) := by
  have _ := hk1
  refine ⟨fun _ => rfl, ?_, ?_, ?_⟩
  · intro init xs hlen
    obtain ⟨a1, a2, -, -⟩ := push_all_spec hk xs (Spsc.fresh init)
      (Nat.two_pow_pos k) (Nat.two_pow_pos k)
    rw [size_fresh, Nat.sub_zero, hlen] at a1
    rw [size_fresh, Nat.sub_zero, contents_fresh, List.nil_append,
      List.take_of_length_le (le_of_eq hlen)] at a2
    refine ⟨?_, a2, ?_⟩
    · rw [a1, Nat.min_self, Nat.sub_self]
      simp
    · rw [← contents_length, a2, hlen]
  · intro init item calls
    obtain ⟨hh, ht, hs⟩ := RunInv.run hk init item calls
    have hle := size_le hk _ hh ht
    omega
  · intro q hr
    obtain ⟨hh, ht⟩ := reachable_in_range hk hr
    exact size_le hk q hh ht

/-- Witness for C14 amended: capacity 4, the three pushes 42, 43, 44 on a fresh queue. -/
theorem max_elements_witness :
    (push_all (2 ^ 2) (Spsc.fresh (fun _ => (0 : Int))) [42, 43, 44]).1
        = List.replicate (2 ^ 2 - 1) true
      ∧ contents (2 ^ 2) (push_all (2 ^ 2) (Spsc.fresh (fun _ => (0 : Int))) [42, 43, 44]).2
        = [42, 43, 44]
      ∧ size (2 ^ 2) (push_all (2 ^ 2) (Spsc.fresh (fun _ => (0 : Int))) [42, 43, 44]).2
        = 2 ^ 2 - 1 :=
  (max_elements 2 (by decide) (by decide)).2.1 (fun _ => (0 : Int)) [42, 43, 44] (by decide)

/-- C16 (success conditions are exact). For a power-of-two capacity `C = 2 ^ k >= 2`, in
every reachable state: `try_push` returns `false` exactly when `size() == C - 1`, which
is when `(tail + 1) & MASK == head`; `try_pop` returns `false` exactly when `empty()`
is `true`, which is when `head == tail`; a `try_push` that returns `true` makes `size()`
one more and a `try_pop` that returns `true` makes it one less. -/
theorem success_conditions_exact {α : Type} (k : Nat) (hk1 : 1 ≤ k) (hk : k ≤ 63)
    (q : Spsc α) (hr : Reachable (2 ^ k) q) (x out : α) :
    ((try_push (2 ^ k) q x).1 = false ↔ size (2 ^ k) q = 2 ^ k - 1)
      ∧ (size (2 ^ k) q = 2 ^ k - 1 ↔ add_sz q.tail_ 1 &&& MASK (2 ^ k) = q.head_)
      ∧ ((try_pop (2 ^ k) q out).1 = false ↔ empty q = true)
      ∧ (empty q = true ↔ q.head_ = q.tail_)
      ∧ ((try_push (2 ^ k) q x).1 = true →
          size (2 ^ k) (try_push (2 ^ k) q x).2 = size (2 ^ k) q + 1)
      ∧ ((try_pop (2 ^ k) q out).1 = true →
          size (2 ^ k) (try_pop (2 ^ k) q out).2.2 + 1 = size (2 ^ k) q) := by
  have _ := hk1
  obtain ⟨hh, ht⟩ := reachable_in_range hk hr
  have hempty : empty q = true ↔ q.head_ = q.tail_ := by
    unfold empty
    exact beq_iff_eq
  have hpush : (try_push (2 ^ k) q x).1 = false ↔ size (2 ^ k) q = 2 ^ k - 1 := by
    constructor
    · intro hf
      by_contra hne
      have := (try_push_room hk q hh ht x hne).1
      rw [hf] at this
      exact Bool.false_ne_true this
    · intro hfull
      rw [try_push_full hk q hh ht x hfull]
  have hpop : (try_pop (2 ^ k) q out).1 = false ↔ q.head_ = q.tail_ := by
    rw [← size_eq_zero_iff hk q hh ht]
    constructor
    · intro hf
      by_contra hne
      have := (try_pop_some hk q hh ht out hne).1
      rw [hf] at this
      exact Bool.false_ne_true this
    · intro hz
      rw [try_pop_none hk q hh ht out hz]
  refine ⟨hpush, ?_, hpop.trans hempty.symm, hempty, ?_, ?_⟩
  · rw [next_cursor hk ht]
    exact (full_iff hk q hh ht).symm
  · intro hok
    have hne : size (2 ^ k) q ≠ 2 ^ k - 1 := by
      intro hfull
      rw [hpush.2 hfull] at hok
      exact Bool.false_ne_true hok
    exact (try_push_room hk q hh ht x hne).2.2.2.1
  · intro hok
    have hne : size (2 ^ k) q ≠ 0 := by
      intro hz
      rw [hpop.2 ((size_eq_zero_iff hk q hh ht).1 hz)] at hok
      exact Bool.false_ne_true hok
    exact (try_pop_some hk q hh ht out hne).2.2.2.2.1

/-- Witness for C16: capacity 4 with `head = 2`, `tail = 1` after the calls push 1, push 2,
push 3, two pops, push 4, push 5: the queue holds 3, 4, 5 and is full. -/
theorem success_conditions_exact_witness :
    (try_push (2 ^ 2) (push_all (2 ^ 2) (pop_n (2 ^ 2) (push_all (2 ^ 2)
        (Spsc.fresh (fun _ => (0 : Int))) [1, 2, 3]).2 0 2).2 [4, 5]).2 6).1 = false
      ↔ size (2 ^ 2) (push_all (2 ^ 2) (pop_n (2 ^ 2) (push_all (2 ^ 2)
        (Spsc.fresh (fun _ => (0 : Int))) [1, 2, 3]).2 0 2).2 [4, 5]).2 = 2 ^ 2 - 1 :=
  (success_conditions_exact 2 (by decide) (by decide)
    (push_all (2 ^ 2) (pop_n (2 ^ 2) (push_all (2 ^ 2)
      (Spsc.fresh (fun _ => (0 : Int))) [1, 2, 3]).2 0 2).2 [4, 5]).2
    (Reachable.of_push_all _ [4, 5] _ (Reachable.of_pop_n _ 2 _ 0
      (Reachable.of_push_all _ [1, 2, 3] _ (Reachable.fresh _)))) 6 0).1

/-- C17 (refinement of a bounded list queue). For a power-of-two capacity `2 ^ k >= 2` and
every finite sequence of `try_push(x)` and `try_pop` calls on a fresh queue, the ring
buffer returns at every call the flag and the popped value of the reference list queue
started empty, and after the calls the list is the slots at `head, head + 1, …,
tail - 1` (mod `Capacity`). -/
theorem ring_refines_list_queue {α : Type} (k : Nat) (hk1 : 1 ≤ k) (hk : k ≤ 63)
    (init : Nat → α) (item : α) (calls : List (Call α)) :
    (exec (try_push (2 ^ k)) (try_pop (2 ^ k)) (Spsc.fresh init) item calls).1
        = (exec (RefQueue.push (2 ^ k)) RefQueue.pop [] item calls).1
      ∧ (exec (RefQueue.push (2 ^ k)) RefQueue.pop [] item calls).2
        = (List.range (size (2 ^ k)
              (exec (try_push (2 ^ k)) (try_pop (2 ^ k)) (Spsc.fresh init) item calls).2)).map
            (fun i =>
              (exec (try_push (2 ^ k)) (try_pop (2 ^ k)) (Spsc.fresh init) item calls).2.slots_
                (((exec (try_push (2 ^ k)) (try_pop (2 ^ k))
                  (Spsc.fresh init) item calls).2.head_ + i) % 2 ^ k)) := by
  have _ := hk1
  obtain ⟨s1, s2, -, -, -⟩ := exec_simulation hk calls (Spsc.fresh init) item
    (Nat.two_pow_pos k) (Nat.two_pow_pos k)
  rw [contents_fresh] at s1 s2
  exact ⟨s1, s2.symm⟩

/-- Witness for C17: capacity 4 and ten calls that take the cursors round the array:
push 1, 2, 3, a refused push 4, pop, push 5, then five pops, the last one refused. -/
theorem ring_refines_list_queue_witness :
    (exec (try_push (2 ^ 2)) (try_pop (2 ^ 2)) (Spsc.fresh (fun _ => (0 : Int))) 0
        [Call.push 1, Call.push 2, Call.push 3, Call.push 4, Call.pop, Call.push 5,
          Call.pop, Call.pop, Call.pop, Call.pop]).1
      = (exec (RefQueue.push (2 ^ 2)) RefQueue.pop [] 0
        [Call.push 1, Call.push 2, Call.push 3, Call.push 4, Call.pop, Call.push 5,
          Call.pop, Call.pop, Call.pop, Call.pop]).1 :=
  (ring_refines_list_queue 2 (by decide) (by decide) (fun _ => (0 : Int)) 0
    [Call.push 1, Call.push 2, Call.push 3, Call.push 4, Call.pop, Call.push 5,
      Call.pop, Call.pop, Call.pop, Call.pop]).1

end lockfree.queue
